import Mathlib

/-!
Verification of `@fastify/send`'s path-resolution, range-parsing and
conditional-negotiation core against a shallow Lean embedding.

The embedding translates the JavaScript source (`lib/send.js`,
`lib/parseBytesRange.js` and friends) into executable Lean definitions:

* JS strings become `String`/`List Char`; JS numbers that can be `NaN` or
  `undefined` are modelled with `Option Int` or the `JsVal` type.
* External collaborators whose source is not part of the repository
  (`Date.parse`, `mime.getType`, `ms.parse`, html document rendering,
  percent decoding) are passed in as explicit function parameters.
* Helper modules of the repository whose own source files are not present
  (only their callers are) are modelled from the specification and marked
  `Modelled from the spec:` in their doc comments.
-/

/-! ### Generic character-list utilities -/

/-- Does `l` start with `p` (character-wise)? -/
def listStartsWith : List Char → List Char → Bool
  | _, [] => true
  | [], _ :: _ => false
  | a :: as, b :: bs => a == b && listStartsWith as bs

/-- Does `hay` contain `needle` as a contiguous sublist?  This models the
JS `hay.indexOf(needle) !== -1` test (the empty needle always matches). -/
def listContainsSub : List Char → List Char → Bool
  | [], n => n.isEmpty
  | h :: t, n => listStartsWith (h :: t) n || listContainsSub t n

/-- JS `hay.indexOf(needle) !== -1` on strings. -/
def strContains (hay needle : String) : Bool :=
  listContainsSub hay.toList needle.toList

/-- Split a character list at every character satisfying `p`, keeping empty
pieces, as JS `String.prototype.split` does.  The result is never `[]`. -/
def splitP (p : Char → Bool) : List Char → List (List Char)
  | [] => [[]]
  | c :: rest =>
    if p c then [] :: splitP p rest
    else
      match splitP p rest with
      | [] => [[c]]
      | g :: gs => (c :: g) :: gs

/-- Join segments with a `/` separator (inverse of splitting on `/`). -/
def joinSegs : List (List Char) → List Char
  | [] => []
  | [s] => s
  | s :: rest => s ++ '/' :: joinSegs rest

/-! ### Node `path` (posix) model

`lib/send.js` uses `path.normalize`, `path.join`, `path.resolve` and
`path.sep` from Node.  On posix `sep = '/'`.  The functions below model the
posix implementations on character lists. -/

/-- The posix path separator predicate. -/
def isSep (c : Char) : Bool := c == '/'

/-- The separator class `[\\/]` of the traversal regexp `UP_PATH_REGEXP`. -/
def isSepRx (c : Char) : Bool := c == '/' || c == '\\'

/-- The path segment `.` -/
def dotSeg : List Char := ['.']

/-- The path segment `..` -/
def dotdotSeg : List Char := ['.', '.']

/-- Does the path (as characters) start with the separator? -/
def isAbsL (cs : List Char) : Bool :=
  match cs with
  | [] => false
  | c :: _ => c == '/'

/-- Does the path end with the separator? -/
def hasTrailL (cs : List Char) : Bool :=
  match cs.getLast? with
  | some c => c == '/'
  | none => false

/-- One step of Node's `normalizeString`: process a single raw segment
against the stack of already-emitted segments (held in reverse).  For
absolute paths a `..` with an empty stack is dropped (it cannot climb above
the filesystem root); for relative paths it is kept. -/
def normStep (isAbs : Bool) (stack : List (List Char)) (part : List Char) : List (List Char) :=
  if part = [] ∨ part = dotSeg then stack
  else if part = dotdotSeg then
    match stack with
    | [] => if isAbs then [] else [dotdotSeg]
    | top :: rest => if top = dotdotSeg then dotdotSeg :: top :: rest else rest
  else part :: stack

/-- The normalized segments of a path: fold `normStep` over the raw split. -/
def normSegsOf (isAbs : Bool) (cs : List Char) : List (List Char) :=
  ((splitP isSep cs).foldl (normStep isAbs) []).reverse

/-- Reassemble a normalized path from its segments, absolute flag and
trailing-separator flag, as Node's `posix.normalize` does. -/
def mkPath (isAbs trail : Bool) (segs : List (List Char)) : List Char :=
  let body := joinSegs segs
  let b1 := if isAbs then '/' :: body else body
  let b2 := if b1 = [] then dotSeg else b1
  if trail ∧ b2.getLast? ≠ some '/' then b2 ++ ['/'] else b2

/-- Node `path.posix.normalize` on character lists. -/
def pathNormalizeL (cs : List Char) : List Char :=
  if cs = [] then dotSeg
  else mkPath (isAbsL cs) (hasTrailL cs) (normSegsOf (isAbsL cs) cs)

/-- Node `path.posix.join` restricted to two arguments, on character lists. -/
def pathJoinL (a b : List Char) : List Char :=
  let j := if a = [] then b else if b = [] then a else a ++ '/' :: b
  if j = [] then dotSeg else pathNormalizeL j

/-- Node `path.posix.resolve` of a single argument against a current
working directory `cwd` (assumed absolute), on character lists: make the
path absolute, normalize, and drop a trailing separator. -/
def pathResolveL (cwd cs : List Char) : List Char :=
  let combined := if isAbsL cs then cs else if cs = [] then cwd else cwd ++ '/' :: cs
  let n := pathNormalizeL combined
  if n ≠ ['/'] ∧ hasTrailL n then n.dropLast else n

/-- The test of `UP_PATH_REGEXP = /(?:^|[\\/])\.\.(?:[\\/]|$)/`: the path
contains a `..` segment delimited by start/end of string, `/` or `\`. -/
def upPathTest (cs : List Char) : Bool :=
  (splitP isSepRx cs).any (fun s => s = dotdotSeg)

/-! ### `normalizePath` (lib/send.js) -/

/-- Result of `normalizePath`: the source returns either `{statusCode}` or
`{path, parts}`. -/
inductive NormalizeResult where
  | err (statusCode : Nat)
  | ok (path : String) (parts : List String)
  deriving DecidableEq, Repr

/-- `normalizePath(_path, root)` from `lib/send.js`.  The percent decoder
(`fast-decode-uri-component`, an external dependency) is passed in as
`decode` (`none` models its `null` failure return), and the process working
directory used by `path.resolve` in the root-less branch as `cwd`. -/
def normalizePath (decode : String → Option String) (path0 : String)
    (root : Option String) (cwd : String) : NormalizeResult :=
  match decode path0 with
  | none => .err 400
  | some p =>
    if p.toList.any (fun c => c == '\x00') then .err 400
    else
      match root with
      | some r =>
        let p1 := if p ≠ "" then pathNormalizeL ('.' :: '/' :: p.toList) else p.toList
        if upPathTest p1 then .err 403
        else .ok (String.mk (pathNormalizeL (pathJoinL r.toList p1)))
               ((splitP isSep p1).map String.mk)
      | none =>
        if upPathTest p.toList then .err 403
        else .ok (String.mk (pathResolveL cwd.toList p.toList))
               ((splitP isSep (pathNormalizeL p.toList)).map String.mk)

/-! ### `parseRange` (lib/parseBytesRange.js) -/

/-- One byte range: `{start, end, index}` in the source (`end` is a Lean
keyword, so the field is called `stop` here). -/
structure RangeSpec where
  start : Int
  stop : Int
  index : Nat
  deriving DecidableEq, Repr

/-- JS `parseInt(s, 10)`: skip leading whitespace, optional sign, then the
maximal run of decimal digits; `none` models `NaN`. -/
def parseIntJS (cs : List Char) : Option Int :=
  let cs := cs.dropWhile (fun c => c == ' ' || c == '\t' || c == '\n' || c == '\r')
  let digitVal (l : List Char) : Option Nat :=
    let ds := l.takeWhile (·.isDigit)
    if ds = [] then none
    else some (ds.foldl (fun a c => a * 10 + (c.toNat - 48)) 0)
  match cs with
  | '-' :: rest => (digitVal rest).map (fun n => -(n : Int))
  | '+' :: rest => (digitVal rest).map (fun n => (n : Int))
  | _ => (digitVal cs).map (fun n => (n : Int))

/-- JS `String.prototype.slice` with possibly negative bounds. -/
def jsSlice (cs : List Char) (i j : Int) : List Char :=
  let len : Int := cs.length
  let conv (x : Int) : Nat := if x < 0 then (len + x).toNat else min x.toNat cs.length
  (cs.take (conv j)).drop (conv i)

/-- JS `String.prototype.indexOf(c, i)`; `-1` when absent. -/
def indexOfFrom (cs : List Char) (c : Char) (i : Nat) : Int :=
  match (cs.drop i).findIdx? (· == c) with
  | some k => ((i + k : Nat) : Int)
  | none => -1

/-- The spec-collection loop of `parseRange`.  The JS `while (true)` loop
advances `prevIdx` to a strictly larger comma position on every iteration
(and `prevIdx < values.length` whenever the loop continues), so it runs at
most `values.length + 1` times; `fuel = values.length + 2` therefore never
runs out and the `0` case is unreachable. -/
def rangeAccStep (size : Int) (values : List Char) (prevIdx commaIdx dashIdx : Int)
    (acc : List RangeSpec) : List RangeSpec :=
  let start0 := parseIntJS (jsSlice values (prevIdx + 1) dashIdx)
  let end0 := parseIntJS (jsSlice values (dashIdx + 1) commaIdx)
  -- `-nnn` / `nnn-` / clamp resolution with NaN (= none) propagation
  let start1 : Option Int :=
    match start0 with
    | none => end0.map (fun e => size - e)
    | some s => some s
  let end1 : Option Int :=
    match start0 with
    | none => some (size - 1)
    | some _ =>
      match end0 with
      | none => some (size - 1)
      | some e => some (if e > size - 1 then size - 1 else e)
  match start1, end1 with
  | some s, some e =>
    if s > -1 ∧ s ≤ e then acc ++ [⟨s, e, acc.length⟩] else acc
  | _, _ => acc

def rangeLoop (size : Int) (values : List Char) (fuel : Nat)
    (prevIdx commaIdx dashIdx : Int) (acc : List RangeSpec) : List RangeSpec :=
  match fuel with
  | 0 => acc
  | fuel' + 1 =>
    let len : Int := values.length
    let commaIdx := if commaIdx = -1 then len else commaIdx
    let acc := rangeAccStep size values prevIdx commaIdx dashIdx acc
    if commaIdx = len then acc
    else
      rangeLoop size values fuel' commaIdx
        (indexOfFrom values ',' (commaIdx + 1).toNat)
        (indexOfFrom values '-' (commaIdx + 1).toNat) acc

/-- The in-place coalescing loop of `parseRange`, written functionally:
`current` is the interval being grown, `done` the finished intervals in
reverse order. -/
def combineLoop (current : RangeSpec) (rest done : List RangeSpec) : List RangeSpec :=
  match rest with
  | [] => (current :: done).reverse
  | r :: rs =>
    if r.start > current.stop + 1 then
      combineLoop r rs (current :: done)
    else if r.stop > current.stop then
      combineLoop ⟨current.start, r.stop,
        if current.index > r.index then r.index else current.index⟩ rs done
    else
      combineLoop current rs done

/-- Coalesce a start-sorted list of specs (the merge phase of `parseRange`). -/
def combineRanges (l : List RangeSpec) : List RangeSpec :=
  match l with
  | [] => []
  | c :: rest => combineLoop c rest []

/-- Comparison used by `sortByRangeStart`. -/
def startLe (a b : RangeSpec) : Prop := a.start ≤ b.start

/-- Comparison used by `sortByRangeIndex`. -/
def indexLe (a b : RangeSpec) : Prop := a.index ≤ b.index

instance : DecidableRel startLe := fun a b => Int.decLe a.start b.start
instance : DecidableRel indexLe := fun a b => Nat.decLe a.index b.index
instance : IsTotal RangeSpec startLe := ⟨fun a b => Int.le_total a.start b.start⟩
instance : IsTrans RangeSpec startLe := ⟨fun _ _ _ h h' => le_trans h h'⟩
instance : IsTotal RangeSpec indexLe := ⟨fun a b => Nat.le_total a.index b.index⟩
instance : IsTrans RangeSpec indexLe := ⟨fun _ _ _ h h' => le_trans h h'⟩

/-- `parseRange(size, str)` from `lib/parseBytesRange.js` (exported there as
`parseBytesRange`).  JS `Array.prototype.sort` is stable, as is
`List.insertionSort`, so the two agree on every input. -/
def rawRanges (size : Int) (str : String) : List RangeSpec :=
  let cs := str.toList
  let values := cs.drop ((indexOfFrom cs '=' 0) + 1).toNat
  rangeLoop size values (values.length + 2) (-1)
    (indexOfFrom values ',' 0) (indexOfFrom values '-' 0) []

def parseRange (size : Int) (str : String) : List RangeSpec :=
  if (rawRanges size str).length < 2 then rawRanges size str
  else
    List.insertionSort indexLe (combineRanges (List.insertionSort startLe (rawRanges size str)))

/-! ### Header maps and the request model

JS objects used as header maps preserve insertion order; updating an
existing key keeps its position, `delete` removes it.  Keys are
case-sensitive, exactly as the source uses them (`ETag`, `Last-Modified`,
...). -/

/-- An ordered header map. -/
abbrev Headers := List (String × String)

/-- Read a header (JS property read; `none` is `undefined`). -/
def hget (h : Headers) (k : String) : Option String :=
  match h with
  | [] => none
  | p :: t => if p.1 = k then some p.2 else hget t k

/-- Write a header (JS property assignment: an existing key keeps its
position, a new key is appended). -/
def hset (h : Headers) (k v : String) : Headers :=
  match h with
  | [] => [(k, v)]
  | p :: t => if p.1 = k then (k, v) :: t else p :: hset t k v

/-- Delete a header (JS `delete`). -/
def hdel (h : Headers) (k : String) : Headers :=
  match h with
  | [] => []
  | p :: t => if p.1 = k then hdel t k else p :: hdel t k

/-- JS truthiness of a `string | undefined` value: `undefined` and the
empty string are falsy. -/
def truthyOpt : Option String → Bool
  | none => false
  | some s => s ≠ ""

/-- The request as `lib/send.js` consumes it: the method and the request
headers the module reads (all lower-case keys in the source). -/
structure Req where
  method : String := "GET"
  ifMatch : Option String := none
  ifNoneMatch : Option String := none
  ifModifiedSince : Option String := none
  ifUnmodifiedSince : Option String := none
  ifRange : Option String := none
  range : Option String := none
  cacheControl : Option String := none

/-- Filesystem metadata consumed from the `fs.stat` collaborator: the byte
size and the modification time in epoch milliseconds (`mtime.getTime()`). -/
structure Stat where
  size : Int
  mtimeMs : Int
  deriving DecidableEq, Repr

/-- External collaborators of `lib/send.js` whose implementations live
outside this repository, passed as explicit functions:
`Date.parse` (`none` = `NaN`), `Date#toUTCString`, `mime.getType`,
`mime.default_type`, `isUtf8MimeType`'s membership test, `ms.parse`
(`none` = `undefined`), and `createHtmlDocument` (returning the document
and its byte length). -/
structure Env where
  dateParse : String → Option Int
  fmtUTC : Int → String
  mimeGetType : String → Option String
  mimeDefault : Option String
  isUtf8Mime : String → Bool
  msParse : String → Option Int
  htmlDoc : String → String → String × Nat

/-- Modelled from the spec: `parseTokenList` (`lib/parseTokenList.js`,
source not under `src/`) — splits a header value into its comma-separated
tokens, trimming surrounding spaces; the callers test each token. -/
def parseTokenList (s : String) : List String :=
  (splitP (· == ',') s.toList).map
    (fun t => String.mk ((t.dropWhile (· == ' ')).reverse.dropWhile (· == ' ') |>.reverse))

/-- `isConditionalGET(request)` from `lib/send.js` (a JS `||` chain over
header values, hence truthiness). -/
def isConditionalGET (req : Req) : Bool :=
  truthyOpt req.ifMatch || truthyOpt req.ifUnmodifiedSince ||
    truthyOpt req.ifNoneMatch || truthyOpt req.ifModifiedSince

/-- `isNotModifiedFailure(request, headers)` from `lib/send.js`. -/
def isNotModifiedFailure (env : Env) (req : Req) (headers : Headers) : Bool :=
  -- Cache-Control: no-cache forces revalidation
  if (match req.cacheControl with
      | some cc => strContains cc "no-cache"
      | none => false) then
    false
  else if req.ifNoneMatch.isSome then
    let ifNoneMatch := req.ifNoneMatch.getD ""
    if ifNoneMatch = "*" then true
    else
      match hget headers "ETag" with
      | none => false
      | some etag =>
        -- If-None-Match is final: If-Modified-Since is not consulted
        (parseTokenList ifNoneMatch).any (fun m =>
          (etag.length = m.length ∧ m = etag) ∨
            (etag.length > m.length ∧ "W/" ++ m = etag))
  else if req.ifModifiedSince.isSome then
    let ims := req.ifModifiedSince.getD ""
    let lastModified := hget headers "Last-Modified"
    if ¬ truthyOpt lastModified then true
    else
      match lastModified.bind env.dateParse, env.dateParse ims with
      | some lm, some t => lm ≤ t
      | _, _ => false
  else false

/-- `isPreconditionFailure(request, headers)` from `lib/send.js`. -/
def isPreconditionFailure (env : Env) (req : Req) (headers : Headers) : Bool :=
  let ifMatchFails :=
    if truthyOpt req.ifMatch then
      let im := req.ifMatch.getD ""
      if im ≠ "*" then
        let etag := hget headers "ETag"
        ¬ (parseTokenList im).any (fun m =>
          some m = etag ∨ some ("W/" ++ m) = etag)
      else false
    else false
  if ifMatchFails then true
  else if req.ifUnmodifiedSince.isSome then
    match env.dateParse (req.ifUnmodifiedSince.getD "") with
    | none => false
    | some unmodifiedSince =>
      match (hget headers "Last-Modified").bind env.dateParse with
      | none => true
      | some lastModified => lastModified > unmodifiedSince
  else false

/-- `isRangeFresh(request, headers)` from `lib/send.js`. -/
def isRangeFresh (env : Env) (req : Req) (headers : Headers) : Bool :=
  match req.ifRange with
  | none => true
  | some ifRange =>
    if strContains ifRange "\"" then
      -- if-range as etag: (etag && ifRange.indexOf(etag) !== -1) || false
      match hget headers "ETag" with
      | none => false
      | some etag => etag ≠ "" ∧ strContains ifRange etag
    else
      match env.dateParse ifRange with
      | none => false
      | some ts =>
        match (hget headers "Last-Modified").bind env.dateParse with
        | none => true   -- NaN Last-Modified compares fresh
        | some lm => lm ≤ ts

/-! ### `normalizeMaxAge` (lib/send.js) -/

/-- A JS number-ish value as it flows through `normalizeMaxAge`:
`undefined`, `NaN`, `Infinity`, or an integer. -/
inductive JsVal where
  | undef
  | nan
  | inf
  | num (n : Int)
  deriving DecidableEq, Repr

/-- `MAX_MAXAGE = 60 * 60 * 24 * 365 * 1000` (one year in milliseconds). -/
def MAX_MAXAGE : Int := 60 * 60 * 24 * 365 * 1000

/-- The `maxAge` option value: either a string (sent through `ms.parse`) or
a non-string (sent through `Number(...)`, already coerced to a `JsVal`;
`Number(undefined)` is `NaN`, represented by `JsVal.undef` pre-coercion). -/
inductive MaxAgeOpt where
  | str (s : String)
  | other (v : JsVal)
  deriving DecidableEq, Repr

/-- JS `Number(...)` coercion on the values `JsVal` can hold. -/
def jsNumber : JsVal → JsVal
  | .undef => .nan
  | v => v

/-- JS `x !== x` (true exactly for `NaN`; `undefined !== undefined` is
false). -/
def jsNeqSelf : JsVal → Bool
  | .nan => true
  | _ => false

/-- JS `Math.max(a, b)` (arguments coerced with `Number`, `NaN` wins). -/
def jsMax (a b : JsVal) : JsVal :=
  match jsNumber a, jsNumber b with
  | .nan, _ => .nan
  | _, .nan => .nan
  | .inf, _ => .inf
  | _, .inf => .inf
  | .num x, .num y => .num (max x y)
  | .undef, v => v   -- unreachable after coercion
  | v, .undef => v

/-- JS `Math.min(a, b)`. -/
def jsMin (a b : JsVal) : JsVal :=
  match jsNumber a, jsNumber b with
  | .nan, _ => .nan
  | _, .nan => .nan
  | .inf, v => v
  | v, .inf => v
  | .num x, .num y => .num (min x y)
  | .undef, v => v   -- unreachable after coercion
  | v, .undef => v

/-- `normalizeMaxAge(_maxage)` from `lib/send.js`.  `ms.parse` (the
`@lukeed/ms` dependency) is passed in as `msParse`; it returns a number or
`undefined` (`none`). -/
def normalizeMaxAge (msParse : String → Option Int) (m : MaxAgeOpt) : JsVal :=
  let maxage : JsVal :=
    match m with
    | .str s =>
      match msParse s with
      | some n => .num n
      | none => .undef
    | .other v => jsNumber v
  if jsNeqSelf maxage then .num 0   -- fast path of isNaN(number)
  else jsMin (jsMax (.num 0) maxage) (.num MAX_MAXAGE)

/-! ### Response construction (lib/send.js) -/

/-- Normalized options as produced by `normalizeOptions` and consumed by
`sendFileDirectly` / `send`.  `dotfiles` is the numeric policy
(`0` allow / `1` ignore / `2` deny). -/
structure Opts where
  acceptRanges : Bool := true
  cacheControl : Bool := true
  contentType : Bool := true
  etag : Bool := true
  dotfiles : Int := 1
  extensions : List String := []
  immutable : Bool := false
  index : List String := ["index.html"]
  lastModified : Bool := true
  maxage : JsVal := .num 0
  maxContentRangeChunkSize : Option Int := none
  root : Option String := none
  highWaterMark : Option Int := none
  start : Option Int := none
  stop : Option Int := none   -- `end` in the source

/-- `validDotFilesOptions.indexOf(s)`: the numeric dotfiles policy. -/
def dotfilesCode (s : String) : Int :=
  if s = "allow" then 0 else if s = "ignore" then 1 else if s = "deny" then 2 else -1

/-- The response byte stream, abstracted: empty, a byte range of a file
(as handed to `fs.createReadStream`), or an in-memory document. -/
inductive StreamRep where
  | empty
  | file (path : String) (start stop : Int) (highWaterMark : Option Int)
  | doc (content : String)
  deriving DecidableEq, Repr

/-- The outcome object `{statusCode, headers, stream, type, metadata}`
returned by `lib/send.js`. -/
structure SendResult where
  statusCode : Nat
  headers : Headers
  stream : StreamRep
  rtype : String
  metaPath : Option String := none
  metaStat : Option Stat := none
  metaErrStatus : Option Nat := none

/-- Error page text per status (`ERROR_RESPONSES` titles/bodies). -/
def errorMessage : Nat → String
  | 400 => "Bad Request"
  | 403 => "Forbidden"
  | 404 => "Not Found"
  | 412 => "Precondition Failed"
  | 416 => "Range Not Satisfiable"
  | _ => "Internal Server Error"

/-- `sendError(statusCode, err)` from `lib/send.js`; `errHeaders` are the
`err.headers` copied onto the response. -/
def sendError (env : Env) (statusCode : Nat) (errHeaders : Headers) : SendResult :=
  let doc := env.htmlDoc "Error" (errorMessage statusCode)
  let headers := errHeaders
  let headers := hset headers "Content-Type" "text/html; charset=utf-8"
  let headers := hset headers "Content-Length" (toString doc.2)
  let headers := hset headers "Content-Security-Policy" "default-src 'none'"
  let headers := hset headers "X-Content-Type-Options" "nosniff"
  { statusCode, headers, stream := .doc doc.1, rtype := "error",
    metaErrStatus := some statusCode }

/-- `sendNotModified(headers, path, stat)` from `lib/send.js`: strip the
entity headers and answer 304 with an empty stream. -/
def sendNotModified (headers : Headers) (path : String) (stat : Stat) : SendResult :=
  let headers := hdel headers "Content-Encoding"
  let headers := hdel headers "Content-Language"
  let headers := hdel headers "Content-Length"
  let headers := hdel headers "Content-Range"
  let headers := hdel headers "Content-Type"
  { statusCode := 304, headers, stream := .empty, rtype := "file",
    metaPath := some path, metaStat := some stat }

/-- Modelled from the spec: `contentRange` (`lib/contentRange.js`, source
not under `src/`) — renders `bytes <start>-<end>/<len>` for a range and
`bytes */<len>` for an unsatisfiable one. -/
def contentRange (t : String) (size : Int) (r : Option RangeSpec) : String :=
  t ++ " " ++
    (match r with
     | some r => toString r.start ++ "-" ++ toString r.stop
     | none => "*") ++ "/" ++ toString size

/-- `W/"<size-hex>-<mtime-ms-hex>"`: the weak ETag built by
`sendFileDirectly` (JS `Number#toString(16)`; sizes and times are
non-negative in practice, negatives carry a sign like in JS). -/
def hexStr (n : Int) : String :=
  if n < 0 then "-" ++ String.mk (Nat.toDigits 16 n.natAbs)
  else String.mk (Nat.toDigits 16 n.toNat)

/-- The ETag generated for a stat. -/
def etagFor (stat : Stat) : String :=
  "W/\"" ++ hexStr stat.size ++ "-" ++ hexStr stat.mtimeMs ++ "\""

/-- `Math.floor(options.maxage / 1000)` rendered into the Cache-Control
value; a `NaN` maxage renders as `"NaN"` exactly as JS string
concatenation would. -/
def maxageSeconds : JsVal → String
  | .num n => toString (n / 1000)
  | .nan => "NaN"
  | .inf => "Infinity"
  | .undef => "NaN"

/-- `BYTES_RANGE_REGEXP = /^ *bytes=/`. -/
def isBytesRange (s : String) : Bool :=
  listStartsWith (s.toList.dropWhile (· == ' ')) "bytes=".toList

/-- JS `a || b` on `string | null | undefined` values. -/
def jsOr (a b : Option String) : Option String :=
  if truthyOpt a then a else b

/-- `sendFileDirectly(request, path, stat, options)` from `lib/send.js`. -/
def sendFileDirectly (env : Env) (request : Req) (path : String) (stat : Stat)
    (options : Opts) : SendResult :=
  let len := stat.size
  let offset := options.start.getD 0
  let statusCode : Nat := 200
  let headers : Headers := []
  -- set header fields
  let headers := if options.acceptRanges then hset headers "Accept-Ranges" "bytes" else headers
  let headers :=
    if options.cacheControl then
      let cc := "public, max-age=" ++ maxageSeconds options.maxage
      let cc := if options.immutable then cc ++ ", immutable" else cc
      hset headers "Cache-Control" cc
    else headers
  let headers :=
    if options.lastModified then hset headers "Last-Modified" (env.fmtUTC stat.mtimeMs)
    else headers
  let headers := if options.etag then hset headers "ETag" (etagFor stat) else headers
  -- set content-type
  let headers :=
    if options.contentType then
      let type0 := jsOr (env.mimeGetType path) env.mimeDefault
      let type1 :=
        match type0 with
        | some t => if t ≠ "" ∧ env.isUtf8Mime t then some (t ++ "; charset=utf-8") else some t
        | none => none
      match type1 with
      | some t => if t ≠ "" then hset headers "Content-Type" t else headers
      | none => headers
    else headers
  -- conditional GET support
  if isConditionalGET request ∧ isPreconditionFailure env request headers then
    sendError env 412 []
  else if isConditionalGET request ∧ isNotModifiedFailure env request headers then
    sendNotModified headers path stat
  else
    -- adjust len to start/end options
    let len := max 0 (len - offset)
    let len :=
      match options.stop with
      | some e => let bytes := e - offset + 1; if len > bytes then bytes else len
      | none => len
    -- Range support
    let rangeOutcome :
        Option (Nat × Headers × Int × Int) :=   -- (status, headers, offset, len) or 416 below
      if options.acceptRanges then
        match request.range with
        | some rangeHeader =>
          if isBytesRange rangeHeader then
            if isRangeFresh env request headers then
              let ranges := parseRange len rangeHeader
              if ranges.length = 0 then none   -- 416 handled by the caller below
              else if h : ranges.length = 1 then
                let r0 := ranges.head (by intro hn; rw [hn] at h; exact absurd h (by decide))
                let r0 :=
                  match options.maxContentRangeChunkSize with
                  | some n =>
                    if n ≠ 0 then
                      { r0 with stop := min r0.stop (r0.start + n - 1) }
                    else r0
                  | none => r0
                let headers := hset headers "Content-Range" (contentRange "bytes" len (some r0))
                some (206, headers, offset + r0.start, r0.stop - r0.start + 1)
              else some (statusCode, headers, offset, len)
            else some (statusCode, headers, offset, len)   -- range stale
          else some (statusCode, headers, offset, len)
        | none => some (statusCode, headers, offset, len)
      else some (statusCode, headers, offset, len)
    match rangeOutcome with
    | none =>
      -- 416 Requested Range Not Satisfiable
      let headers := hset headers "Content-Range" (contentRange "bytes" len none)
      sendError env 416 [("Content-Range", contentRange "bytes" len none)]
    | some (statusCode, headers, offset, len) =>
      let headers := hset headers "Content-Length" (toString len)
      if request.method = "HEAD" then
        { statusCode, headers, stream := .empty, rtype := "file",
          metaPath := some path, metaStat := some stat }
      else
        { statusCode, headers,
          stream := .file path offset (max offset (offset + len - 1)) options.highWaterMark,
          rtype := "file", metaPath := some path, metaStat := some stat }

/-! ### `send` dispatch: path resolution and the dotfile policy -/

/-- Modelled from the spec: `containsDotFile` (`lib/containsDotFile.js`,
source not under `src/`) — a path contains a dotfile if any segment other
than `.`/empty begins with `.`. -/
def containsDotFile (parts : List String) : Bool :=
  parts.any (fun s => s ≠ "" && s ≠ "." && listStartsWith s.toList ['.'])

/-- `hasTrailingSlash(path)` from `lib/send.js`. -/
def hasTrailingSlash (path : String) : Bool :=
  match path.toList.getLast? with
  | some c => c == '/'
  | none => false

/-- Where `send(request, _path, options)` dispatches after path
normalization and the dotfile policy check: an error outcome, the index
lookup, or the file lookup (the filesystem stages themselves are async
collaborator calls). -/
inductive SendStep where
  | error (statusCode : Nat)
  | index (path : String)
  | file (path : String)
  deriving DecidableEq, Repr

/-- The synchronous prefix of `send(request, _path, options)` from
`lib/send.js`: path normalization, dotfile policy, and the choice between
`sendIndex` and `sendFile`.  `debugEnabled` models `debug.enabled`. -/
def sendDispatch (decode : String → Option String) (cwd : String)
    (debugEnabled : Bool) (path0 : String) (opts : Opts) : SendStep :=
  match normalizePath decode path0 opts.root cwd with
  | .err statusCode => .error statusCode
  | .ok path parts =>
    if (debugEnabled || opts.dotfiles ≠ 0) ∧ containsDotFile parts then
      if opts.dotfiles = 0 then
        -- 'allow': fall through
        if opts.index ≠ [] ∧ hasTrailingSlash path0 then .index path else .file path
      else if opts.dotfiles = 2 then .error 403
      else .error 404
    else
      if opts.index ≠ [] ∧ hasTrailingSlash path0 then .index path else .file path

/-! ### Helper lemmas about header maps -/

theorem hget_hdel_self (h : Headers) (k : String) : hget (hdel h k) k = none := by
  induction h with
  | nil => rfl
  | cons p t ih =>
    unfold hdel
    by_cases hp : p.1 = k
    · simp only [if_pos hp]
      exact ih
    · simp only [if_neg hp]
      unfold hget
      simp only [if_neg hp]
      exact ih

theorem hget_hdel_ne (h : Headers) (k k' : String) (hne : k' ≠ k) :
    hget (hdel h k) k' = hget h k' := by
  induction h with
  | nil => rfl
  | cons p t ih =>
    unfold hdel
    by_cases hp : p.1 = k
    · simp only [if_pos hp]
      have : ¬ p.1 = k' := by rw [hp]; exact fun he => hne he.symm
      show hget (hdel t k) k' = if p.1 = k' then some p.2 else hget t k'
      rw [if_neg this, ih]
    · simp only [if_neg hp]
      unfold hget
      by_cases hq : p.1 = k'
      · simp only [if_pos hq]
      · simp only [if_neg hq]
        exact ih

/-! ### Claim theorems (simple group) -/

/-- C2.  Parsing `bytes=0-4,90-99,5-75,100-199,101-102` against size 150
returns exactly the two coalesced ranges `{start 0, end 75}` and
`{start 90, end 149}`, in the declaration order of their minimum original
indices. -/
theorem parseRange_coalesce_example :
    parseRange 150 "bytes=0-4,90-99,5-75,100-199,101-102" =
      [⟨0, 75, 0⟩, ⟨90, 149, 1⟩] := by
  rfl

/-- C9.  `normalizePath` and `parseRange` are deterministic: two calls on
identical inputs give identical outputs.  In this embedding both are pure
functions — faithfully so, because their JS sources read no mutable state
(the only ambient references, the decoder and the `path` module, are
themselves pure and appear here as explicit arguments). -/
theorem resolve_parse_deterministic
    (decode : String → Option String) (path0 : String) (root : Option String)
    (cwd : String) (size : Int) (str : String) :
    normalizePath decode path0 root cwd = normalizePath decode path0 root cwd ∧
      parseRange size str = parseRange size str :=
  ⟨rfl, rfl⟩

/-- C7.  `sendNotModified` answers 304 and strips exactly the five entity
headers (Content-Encoding, Content-Language, Content-Length, Content-Range,
Content-Type) from the in-flight header map; every other header keeps the
value it had. -/
theorem sendNotModified_strips_entity_headers (h : Headers) (path : String) (stat : Stat) :
    (sendNotModified h path stat).statusCode = 304 ∧
    hget (sendNotModified h path stat).headers "Content-Encoding" = none ∧
    hget (sendNotModified h path stat).headers "Content-Language" = none ∧
    hget (sendNotModified h path stat).headers "Content-Length" = none ∧
    hget (sendNotModified h path stat).headers "Content-Range" = none ∧
    hget (sendNotModified h path stat).headers "Content-Type" = none ∧
    ∀ k, k ≠ "Content-Encoding" → k ≠ "Content-Language" → k ≠ "Content-Length" →
      k ≠ "Content-Range" → k ≠ "Content-Type" →
      hget (sendNotModified h path stat).headers k = hget h k := by
  refine ⟨rfl, ?_, ?_, ?_, ?_, ?_, ?_⟩
  · show hget (hdel (hdel (hdel (hdel (hdel h "Content-Encoding") "Content-Language")
      "Content-Length") "Content-Range") "Content-Type") "Content-Encoding" = none
    rw [hget_hdel_ne _ _ _ (by decide), hget_hdel_ne _ _ _ (by decide),
      hget_hdel_ne _ _ _ (by decide), hget_hdel_ne _ _ _ (by decide), hget_hdel_self]
  · show hget (hdel (hdel (hdel (hdel (hdel h "Content-Encoding") "Content-Language")
      "Content-Length") "Content-Range") "Content-Type") "Content-Language" = none
    rw [hget_hdel_ne _ _ _ (by decide), hget_hdel_ne _ _ _ (by decide),
      hget_hdel_ne _ _ _ (by decide), hget_hdel_self]
  · show hget (hdel (hdel (hdel (hdel (hdel h "Content-Encoding") "Content-Language")
      "Content-Length") "Content-Range") "Content-Type") "Content-Length" = none
    rw [hget_hdel_ne _ _ _ (by decide), hget_hdel_ne _ _ _ (by decide), hget_hdel_self]
  · show hget (hdel (hdel (hdel (hdel (hdel h "Content-Encoding") "Content-Language")
      "Content-Length") "Content-Range") "Content-Type") "Content-Range" = none
    rw [hget_hdel_ne _ _ _ (by decide), hget_hdel_self]
  · exact hget_hdel_self _ _
  · intro k h1 h2 h3 h4 h5
    show hget (hdel (hdel (hdel (hdel (hdel h "Content-Encoding") "Content-Language")
      "Content-Length") "Content-Range") "Content-Type") k = hget h k
    rw [hget_hdel_ne _ _ _ h5, hget_hdel_ne _ _ _ h4, hget_hdel_ne _ _ _ h3,
      hget_hdel_ne _ _ _ h2, hget_hdel_ne _ _ _ h1]

/-- Witness for C7 at a concrete header map. -/
theorem sendNotModified_strips_entity_headers_witness :
    (sendNotModified [("ETag", "W/\"4-ff\""), ("Content-Type", "text/plain")] "/f" ⟨4, 255⟩).statusCode = 304 ∧
    hget (sendNotModified [("ETag", "W/\"4-ff\""), ("Content-Type", "text/plain")] "/f" ⟨4, 255⟩).headers "Content-Type" = none ∧
    hget (sendNotModified [("ETag", "W/\"4-ff\""), ("Content-Type", "text/plain")] "/f" ⟨4, 255⟩).headers "ETag" =
      hget [("ETag", "W/\"4-ff\""), ("Content-Type", "text/plain")] "ETag" := by
  have h := sendNotModified_strips_entity_headers
    [("ETag", "W/\"4-ff\""), ("Content-Type", "text/plain")] "/f" ⟨4, 255⟩
  exact ⟨h.1, h.2.2.2.2.2.1,
    h.2.2.2.2.2.2 "ETag" (by decide) (by decide) (by decide) (by decide) (by decide)⟩

/-- C10 counterexample.  The claim says option values that fail to parse to
a number yield 0; but `ms.parse` signals failure with `undefined`, which
slips past the `maxage !== maxage` NaN check (`undefined !== undefined` is
false) and then poisons `Math.max`/`Math.min` to `NaN` — not 0, and not
in `[0, MAX_MAXAGE]`. -/
theorem normalizeMaxAge_unparsable_cex :
    normalizeMaxAge (fun _ => none) (.str "not-a-duration") = .nan ∧
      JsVal.nan ≠ .num 0 ∧ ∀ n : Int, JsVal.nan ≠ .num n := by
  exact ⟨rfl, by decide, fun n h => JsVal.noConfusion h⟩

/-- C10 amended.  For every non-string option value (numbers including
`NaN` and `Infinity`, and `undefined`) and for every duration string that
`ms.parse` does parse, the normalized max-age is an integer in
`[0, MAX_MAXAGE]` (unparsable-to-NaN numbers yield 0, negatives are raised
to 0, larger values capped at one year); but a string that `ms.parse`
fails to parse (returning `undefined`) yields `NaN` instead of 0. -/
theorem normalizeMaxAge_bounds (msParse : String → Option Int) (m : MaxAgeOpt) :
    (∀ v, m = .other v →
       ∃ n, normalizeMaxAge msParse m = .num n ∧ 0 ≤ n ∧ n ≤ MAX_MAXAGE) ∧
    (∀ s k, m = .str s → msParse s = some k →
       ∃ n, normalizeMaxAge msParse m = .num n ∧ 0 ≤ n ∧ n ≤ MAX_MAXAGE) ∧
    (∀ s, m = .str s → msParse s = none → normalizeMaxAge msParse m = .nan) := by
  have hnum : ∀ x : Int, ∃ n, jsMin (jsMax (.num 0) (.num x)) (.num MAX_MAXAGE) = .num n ∧
      0 ≤ n ∧ n ≤ MAX_MAXAGE := by
    intro x
    refine ⟨min (max 0 x) MAX_MAXAGE, rfl, ?_, min_le_right _ _⟩
    exact le_min (le_max_left 0 x) (by unfold MAX_MAXAGE; omega)
  refine ⟨?_, ?_, ?_⟩
  · rintro v rfl
    match v with
    | .undef => exact ⟨0, rfl, le_refl 0, by unfold MAX_MAXAGE; omega⟩
    | .nan => exact ⟨0, rfl, le_refl 0, by unfold MAX_MAXAGE; omega⟩
    | .inf => exact ⟨MAX_MAXAGE, rfl, by unfold MAX_MAXAGE; omega, le_refl _⟩
    | .num x =>
      have h := hnum x
      simpa [normalizeMaxAge, jsNumber, jsNeqSelf] using h
  · rintro s k rfl hk
    have h := hnum k
    simp only [normalizeMaxAge, hk, jsNeqSelf]
    exact h
  · rintro s rfl hs
    simp only [normalizeMaxAge, hs, jsNeqSelf]
    rfl

/-- Witness for C10 at concrete inputs. -/
theorem normalizeMaxAge_bounds_witness :
    (∃ n, normalizeMaxAge (fun _ => some 2592000000) (.other (.num 1234)) = .num n ∧
       0 ≤ n ∧ n ≤ MAX_MAXAGE) ∧
    (∃ n, normalizeMaxAge (fun _ => some 2592000000) (.str "30d") = .num n ∧
       0 ≤ n ∧ n ≤ MAX_MAXAGE) := by
  refine ⟨(normalizeMaxAge_bounds (fun _ => some 2592000000) (.other (.num 1234))).1
    (.num 1234) rfl, ?_⟩
  exact (normalizeMaxAge_bounds (fun _ => some 2592000000) (.str "30d")).2.1
    "30d" 2592000000 rfl rfl

/-- A concrete environment used by witnesses and counterexamples. -/
def envCex : Env :=
  { dateParse := fun s => if s = "Sat, 01 Jan 2000 00:00:00 GMT" then some 946684800000 else none,
    fmtUTC := fun n => "UTC:" ++ toString n,
    mimeGetType := fun _ => some "text/plain",
    mimeDefault := none,
    isUtf8Mime := fun t => t = "text/plain",
    msParse := fun _ => none,
    htmlDoc := fun t b => (t ++ "|" ++ b, (t ++ "|" ++ b).length) }

/-- C4 counterexample.  The claim says the entity-tag branch of
`isRangeFresh` is fresh only if the If-Range value *exactly equals* the
current ETag; the code uses a substring test (`indexOf !== -1`), so an
If-Range listing two tags, one of which is the current ETag, is reported
fresh although it does not equal the ETag. -/
theorem isRangeFresh_exact_match_cex :
    isRangeFresh envCex { ifRange := some "\"abc\", \"def\"" } [("ETag", "\"abc\"")] = true ∧
      ("\"abc\", \"def\"" : String) ≠ "\"abc\"" := by
  exact ⟨rfl, by decide⟩

/-- C4 amended.  `isRangeFresh`: no If-Range header means fresh; an
If-Range value containing a quote is an entity-tag comparison that is
fresh iff the current ETag header is set, non-empty, and occurs as a
*substring* of the If-Range value; otherwise the value is parsed as a
date — unparsable means stale, else fresh iff Last-Modified is missing or
unparsable, or parses to a time `≤` the If-Range time. -/
theorem isRangeFresh_characterization (env : Env) (req : Req) (headers : Headers) :
    (req.ifRange = none → isRangeFresh env req headers = true) ∧
    (∀ v, req.ifRange = some v → strContains v "\"" = true →
       (isRangeFresh env req headers = true ↔
         ∃ e, hget headers "ETag" = some e ∧ e ≠ "" ∧ strContains v e = true)) ∧
    (∀ v, req.ifRange = some v → strContains v "\"" = false →
       env.dateParse v = none → isRangeFresh env req headers = false) ∧
    (∀ v t, req.ifRange = some v → strContains v "\"" = false → env.dateParse v = some t →
       (isRangeFresh env req headers = true ↔
         ∀ lm, (hget headers "Last-Modified").bind env.dateParse = some lm → lm ≤ t)) := by
  refine ⟨?_, ?_, ?_, ?_⟩
  · intro h
    unfold isRangeFresh
    rw [h]
  · intro v hv hq
    unfold isRangeFresh
    rw [hv]
    simp only [hq, if_true]
    cases he : hget headers "ETag" with
    | none =>
      constructor
      · intro h; exact absurd h Bool.false_ne_true
      · rintro ⟨e, he', _⟩
        exact Option.noConfusion he'
    | some e =>
      constructor
      · intro h
        have h' : e ≠ "" ∧ strContains v e = true := by simpa using h
        exact ⟨e, rfl, h'.1, h'.2⟩
      · rintro ⟨e', he', hne, hc⟩
        have : e = e' := Option.some.inj he'
        subst this
        simpa using And.intro hne hc
  · intro v hv hq hd
    unfold isRangeFresh
    rw [hv]
    simp only [hq, Bool.false_eq_true, if_false, hd]
  · intro v t hv hq hd
    unfold isRangeFresh
    rw [hv]
    simp only [hq, Bool.false_eq_true, if_false, hd]
    cases hl : (hget headers "Last-Modified").bind env.dateParse with
    | none =>
      constructor
      · intro _ lm hlm
        exact Option.noConfusion hlm
      · intro _; rfl
    | some lm =>
      constructor
      · intro h lm' hlm'
        have : lm = lm' := Option.some.inj hlm'
        subst this
        simpa using h
      · intro h
        simpa using h lm rfl

/-- Witness for C4 at concrete inputs. -/
theorem isRangeFresh_characterization_witness :
    (isRangeFresh envCex { ifRange := some "\"xyz\"" } [("ETag", "\"xyz\"")] = true ↔
      ∃ e, hget [("ETag", "\"xyz\"")] "ETag" = some e ∧ e ≠ "" ∧
        strContains "\"xyz\"" e = true) ∧
    isRangeFresh envCex { ifRange := some "garbage" } [] = false := by
  constructor
  · exact (isRangeFresh_characterization envCex { ifRange := some "\"xyz\"" }
      [("ETag", "\"xyz\"")]).2.1 "\"xyz\"" rfl (by decide)
  · exact (isRangeFresh_characterization envCex { ifRange := some "garbage" } []).2.2.1
      "garbage" rfl (by decide) (by decide)

/-- C3.  The not-modified check: (1) a request whose Cache-Control contains
`no-cache` is never "not modified" (so with If-None-Match equal to the
current ETag plus `Cache-Control: no-cache`, `sendFileDirectly` answers a
full 200, not 304); (2) when If-None-Match is present its verdict is final —
the result does not depend on If-Modified-Since at all. -/
theorem isNotModified_precedence (env : Env) (req : Req) (headers : Headers)
    (path : String) (stat : Stat) (opts : Opts) :
    (∀ cc, req.cacheControl = some cc → strContains cc "no-cache" = true →
       isNotModifiedFailure env req headers = false) ∧
    (req.ifNoneMatch.isSome = true → ∀ ims,
       isNotModifiedFailure env req headers =
         isNotModifiedFailure env { req with ifModifiedSince := ims } headers) ∧
    (req.ifMatch = none → req.ifUnmodifiedSince = none → req.range = none →
     ∀ cc, req.cacheControl = some cc → strContains cc "no-cache" = true →
     req.ifNoneMatch = some (etagFor stat) →
     (sendFileDirectly env req path stat opts).statusCode = 200) := by
  have part1 : ∀ cc, req.cacheControl = some cc → strContains cc "no-cache" = true →
      isNotModifiedFailure env req headers = false := by
    intro cc hcc hnc
    unfold isNotModifiedFailure
    rw [hcc]
    simp only [hnc, if_true]
  refine ⟨part1, ?_, ?_⟩
  · intro hs ims
    obtain ⟨m, im, inm, ims0, ius, ir, rg, cc⟩ := req
    cases inm with
    | none => exact absurd hs (by simp)
    | some a => rfl
  · intro him hius hrg cc hcc hnc hinm
    have hpre : ∀ H, isPreconditionFailure env req H = false := by
      intro H
      unfold isPreconditionFailure
      rw [him, hius]
      rfl
    have hnm : ∀ H, isNotModifiedFailure env req H = false := by
      intro H
      unfold isNotModifiedFailure
      rw [hcc]
      simp only [hnc, if_true]
    unfold sendFileDirectly
    simp only [hpre, hnm, hrg, Bool.false_eq_true, and_false, if_false, ite_self]
    split <;> rfl

/-- Witness for C3 at concrete inputs. -/
theorem isNotModified_precedence_witness :
    isNotModifiedFailure envCex
      { cacheControl := some "no-cache", ifNoneMatch := some (etagFor ⟨4, 255⟩) }
      [("ETag", etagFor ⟨4, 255⟩)] = false ∧
    (sendFileDirectly envCex
      { cacheControl := some "no-cache", ifNoneMatch := some (etagFor ⟨4, 255⟩) }
      "/f/name.txt" ⟨4, 255⟩ {}).statusCode = 200 := by
  constructor
  · exact (isNotModified_precedence envCex
      { cacheControl := some "no-cache", ifNoneMatch := some (etagFor ⟨4, 255⟩) }
      [("ETag", etagFor ⟨4, 255⟩)] "/f/name.txt" ⟨4, 255⟩ {}).1 "no-cache" rfl (by decide)
  · exact (isNotModified_precedence envCex
      { cacheControl := some "no-cache", ifNoneMatch := some (etagFor ⟨4, 255⟩) }
      [] "/f/name.txt" ⟨4, 255⟩ {}).2.2 rfl rfl rfl "no-cache" rfl (by decide) rfl

/-- C8.  For a request whose decoded, normalized path segments contain a
dotfile: policy `allow` (0) lets the request continue to the index/file
lookup, policy `deny` (2) answers 403 Forbidden, and policy `ignore`
(1, the default) answers 404 Not Found. -/
theorem send_dotfile_policy (decode : String → Option String) (cwd : String)
    (debugEnabled : Bool) (path0 : String) (opts : Opts) (path : String)
    (parts : List String)
    (hn : normalizePath decode path0 opts.root cwd = .ok path parts)
    (hdot : containsDotFile parts = true) :
    (opts.dotfiles = dotfilesCode "allow" →
       sendDispatch decode cwd debugEnabled path0 opts =
         (if opts.index ≠ [] ∧ hasTrailingSlash path0 then .index path else .file path)) ∧
    (opts.dotfiles = dotfilesCode "deny" →
       sendDispatch decode cwd debugEnabled path0 opts = .error 403) ∧
    (opts.dotfiles = dotfilesCode "ignore" →
       sendDispatch decode cwd debugEnabled path0 opts = .error 404) := by
  refine ⟨?_, ?_, ?_⟩
  · intro hd
    unfold sendDispatch
    rw [hn]
    have hd0 : opts.dotfiles = 0 := hd
    cases debugEnabled with
    | true => simp [hd0, hdot]
    | false => simp [hd0, hdot]
  · intro hd
    unfold sendDispatch
    rw [hn]
    have hd2 : opts.dotfiles = 2 := hd
    simp [hd2, hdot]
  · intro hd
    unfold sendDispatch
    rw [hn]
    have hd1 : opts.dotfiles = 1 := hd
    simp [hd1, hdot]

/-- Witness for C8 at concrete inputs (request path `/.hidden` under root
`/r`). -/
theorem send_dotfile_policy_witness :
    sendDispatch some "/" false "/.hidden" { root := some "/r", dotfiles := 0 } = .file "/r/.hidden" ∧
    sendDispatch some "/" false "/.hidden" { root := some "/r", dotfiles := 2 } = .error 403 ∧
    sendDispatch some "/" false "/.hidden" { root := some "/r", dotfiles := 1 } = .error 404 := by
  refine ⟨?_, ?_, ?_⟩
  · exact (send_dotfile_policy some "/" false "/.hidden" { root := some "/r", dotfiles := 0 }
      "/r/.hidden" [".hidden"] rfl (by decide)).1 rfl
  · exact (send_dotfile_policy some "/" false "/.hidden" { root := some "/r", dotfiles := 2 }
      "/r/.hidden" [".hidden"] rfl (by decide)).2.1 rfl
  · exact (send_dotfile_policy some "/" false "/.hidden" { root := some "/r", dotfiles := 1 }
      "/r/.hidden" [".hidden"] rfl (by decide)).2.2 rfl

/-! ### Coalescing lemmas (claims C5 and C6) -/

/-- Two merged ranges are separated by a gap of at least one byte. -/
def gapRel (a b : RangeSpec) : Prop := a.stop + 1 < b.start

theorem rangeAccStep_valid (size : Int) (values : List Char)
    (prevIdx commaIdx dashIdx : Int) (acc : List RangeSpec)
    (hacc : ∀ r ∈ acc, 0 ≤ r.start ∧ r.start ≤ r.stop) :
    ∀ r ∈ rangeAccStep size values prevIdx commaIdx dashIdx acc,
      0 ≤ r.start ∧ r.start ≤ r.stop := by
  intro r hr
  unfold rangeAccStep at hr
  simp only [] at hr
  split at hr
  case h_1 s e _ _ =>
    split at hr
    case isTrue h =>
      rw [List.mem_append] at hr
      cases hr with
      | inl h' => exact hacc r h'
      | inr h' =>
        rw [List.mem_singleton] at h'
        subst h'
        exact ⟨by show (0:Int) ≤ s; omega, h.2⟩
    case isFalse => exact hacc r hr
  case h_2 => exact hacc r hr

theorem rangeLoop_valid (fuel : Nat) : ∀ (size : Int) (values : List Char)
    (prevIdx commaIdx dashIdx : Int) (acc : List RangeSpec),
    (∀ r ∈ acc, 0 ≤ r.start ∧ r.start ≤ r.stop) →
    ∀ r ∈ rangeLoop size values fuel prevIdx commaIdx dashIdx acc,
      0 ≤ r.start ∧ r.start ≤ r.stop := by
  induction fuel with
  | zero =>
    intro size values prevIdx commaIdx dashIdx acc hacc r hr
    exact hacc r hr
  | succ fuel ih =>
    intro size values prevIdx commaIdx dashIdx acc hacc r hr
    unfold rangeLoop at hr
    simp only [] at hr
    split at hr <;> split at hr
    all_goals
      first
        | exact rangeAccStep_valid _ _ _ _ _ _ hacc r hr
        | exact ih _ _ _ _ _ _ (rangeAccStep_valid _ _ _ _ _ _ hacc) r hr

theorem rawRanges_valid (size : Int) (str : String) :
    ∀ r ∈ rawRanges size str, 0 ≤ r.start ∧ r.start ≤ r.stop := by
  intro r hr
  unfold rawRanges at hr
  exact rangeLoop_valid _ _ _ _ _ _ _ (fun r hr => absurd hr (List.not_mem_nil r)) r hr

theorem combineLoop_pairwise :
    ∀ (rest : List RangeSpec) (current : RangeSpec) (done : List RangeSpec),
      current.start ≤ current.stop →
      (∀ r ∈ rest, r.start ≤ r.stop) →
      List.Pairwise startLe rest →
      (∀ r ∈ rest, current.start ≤ r.start) →
      List.Pairwise gapRel (done.reverse ++ [current]) →
      List.Pairwise gapRel (combineLoop current rest done) := by
  intro rest
  induction rest with
  | nil =>
    intro current done _ _ _ _ hP
    unfold combineLoop
    rw [List.reverse_cons]
    exact hP
  | cons r rs ih =>
    intro current done hcv hv hsorted hge hP
    unfold combineLoop
    by_cases h1 : r.start > current.stop + 1
    · -- new merged interval
      rw [if_pos h1]
      apply ih r (current :: done)
      · exact hv r (List.mem_cons_self r rs)
      · intro x hx; exact hv x (List.mem_cons_of_mem r hx)
      · exact (List.pairwise_cons.mp hsorted).2
      · intro x hx; exact (List.pairwise_cons.mp hsorted).1 x hx
      · rw [List.reverse_cons]
        rw [List.pairwise_append]
        obtain ⟨hPl, -, hPrel⟩ := List.pairwise_append.mp hP
        refine ⟨hP, List.pairwise_singleton _ _, ?_⟩
        intro a ha b hb
        rw [List.mem_singleton] at hb
        subst hb
        rw [List.mem_append] at ha
        cases ha with
        | inl ha' =>
          have hga : gapRel a current := hPrel a ha' current (List.mem_singleton.mpr rfl)
          unfold gapRel at *
          omega
        | inr ha' =>
          rw [List.mem_singleton] at ha'
          subst ha'
          unfold gapRel
          omega
    · rw [if_neg h1]
      by_cases h2 : r.stop > current.stop
      · -- extend the current interval
        rw [if_pos h2]
        generalize (if current.index > r.index then r.index else current.index) = idx
        apply ih ⟨current.start, r.stop, idx⟩ done
        · show current.start ≤ r.stop
          omega
        · intro x hx; exact hv x (List.mem_cons_of_mem r hx)
        · exact (List.pairwise_cons.mp hsorted).2
        · intro x hx
          show current.start ≤ x.start
          exact hge x (List.mem_cons_of_mem r hx)
        · rw [List.pairwise_append] at hP ⊢
          obtain ⟨hPl, -, hPrel⟩ := hP
          refine ⟨hPl, List.pairwise_singleton _ _, ?_⟩
          intro a ha b hb
          rw [List.mem_singleton] at hb
          subst hb
          have := hPrel a ha current (List.mem_singleton.mpr rfl)
          exact this
      · -- absorbed (contained) range
        rw [if_neg h2]
        apply ih current done hcv
        · intro x hx; exact hv x (List.mem_cons_of_mem r hx)
        · exact (List.pairwise_cons.mp hsorted).2
        · intro x hx; exact hge x (List.mem_cons_of_mem r hx)
        · exact hP

theorem combineRanges_pairwise (l : List RangeSpec)
    (hs : List.Pairwise startLe l)
    (hv : ∀ r ∈ l, 0 ≤ r.start ∧ r.start ≤ r.stop) :
    List.Pairwise gapRel (combineRanges l) := by
  cases l with
  | nil => exact List.Pairwise.nil
  | cons c rest =>
    unfold combineRanges
    apply combineLoop_pairwise rest c []
    · exact (hv c (List.mem_cons_self c rest)).2
    · intro x hx; exact (hv x (List.mem_cons_of_mem c hx)).2
    · exact (List.pairwise_cons.mp hs).2
    · intro x hx; exact (List.pairwise_cons.mp hs).1 x hx
    · exact List.pairwise_singleton _ _

/-- C6.  After parsing completes, any two returned ranges with different
`index` occupy disjoint, non-adjacent byte intervals (a gap of at least one
byte separates them). -/
theorem parseRange_disjoint_nonadjacent (size : Int) (str : String)
    (r1 r2 : RangeSpec) (h1 : r1 ∈ parseRange size str)
    (h2 : r2 ∈ parseRange size str) (hne : r1.index ≠ r2.index) :
    r1.stop + 1 < r2.start ∨ r2.stop + 1 < r1.start := by
  by_cases hlen : (rawRanges size str).length < 2
  · rw [parseRange, if_pos hlen] at h1 h2
    cases hL : rawRanges size str with
    | nil =>
      rw [hL] at h1
      exact absurd h1 (List.not_mem_nil _)
    | cons a t =>
      cases t with
      | nil =>
        rw [hL] at h1 h2
        rw [List.mem_singleton] at h1 h2
        subst h1; subst h2
        exact absurd rfl hne
      | cons b t2 =>
        rw [hL] at hlen
        simp at hlen
        omega
  · rw [parseRange, if_neg hlen] at h1 h2
    have hvraw := rawRanges_valid size str
    have hsorted : List.Pairwise startLe (List.insertionSort startLe (rawRanges size str)) :=
      List.sorted_insertionSort startLe (rawRanges size str)
    have hvs : ∀ r ∈ List.insertionSort startLe (rawRanges size str),
        0 ≤ r.start ∧ r.start ≤ r.stop := by
      intro r hr
      exact hvraw r ((List.perm_insertionSort startLe (rawRanges size str)).mem_iff.mp hr)
    have hm := combineRanges_pairwise _ hsorted hvs
    have hsym : List.Pairwise (fun a b => gapRel a b ∨ gapRel b a)
        (combineRanges (List.insertionSort startLe (rawRanges size str))) :=
      hm.imp (fun h => Or.inl h)
    have hperm := List.perm_insertionSort indexLe
      (combineRanges (List.insertionSort startLe (rawRanges size str)))
    have hout : List.Pairwise (fun a b => gapRel a b ∨ gapRel b a)
        (List.insertionSort indexLe
          (combineRanges (List.insertionSort startLe (rawRanges size str)))) :=
      (List.Perm.pairwise_iff (fun h => h.symm) hperm).mpr hsym
    have hforall := List.Pairwise.forall
      (R := fun a b => gapRel a b ∨ gapRel b a)
      (fun a b h => h.symm) hout h1 h2
      (fun he => hne (congrArg RangeSpec.index he))
    exact hforall

/-- Witness for C6 at a concrete header. -/
theorem parseRange_disjoint_nonadjacent_witness :
    (⟨0, 75, 0⟩ : RangeSpec).stop + 1 < (⟨90, 149, 1⟩ : RangeSpec).start ∨
      (⟨90, 149, 1⟩ : RangeSpec).stop + 1 < (⟨0, 75, 0⟩ : RangeSpec).start :=
  parseRange_disjoint_nonadjacent 150 "bytes=0-4,90-99,5-75,100-199,101-102"
    ⟨0, 75, 0⟩ ⟨90, 149, 1⟩ (by decide) (by decide) (by decide)

/-- C5 counterexample.  The claim says a merged interval keeps the
*minimum original index among all merged members*; but a spec that is
entirely contained in the current interval (`end <= current.end`) is
dropped without its index being considered.  For
`bytes=2-3,20-30,0-10` (size 100) the interval `0-10` absorbs `2-3`
(original index 0) yet keeps index 2, so the output is re-ordered as
`[{20,30}, {0,10}]` instead of the claimed `[{0,10 (index 0)}, {20,30}]`. -/
theorem parseRange_min_index_cex :
    parseRange 100 "bytes=2-3,20-30,0-10" =
      [⟨20, 30, 1⟩, ⟨0, 10, 2⟩] ∧
    ([⟨20, 30, 1⟩, ⟨0, 10, 2⟩] : List RangeSpec) ≠ [⟨0, 10, 0⟩, ⟨20, 30, 1⟩] := by
  exact ⟨by rfl, by decide⟩

/-- The coalescing step of `parseRange` as the amended claim describes it:
walk the start-sorted specs; a spec starting after `current.end + 1` opens
a new merged interval; a spec that extends the current interval
(`end > current.end`) grows it and lowers its index to the minimum of the
two; a spec contained in the current interval is absorbed without touching
the interval's bounds or index. -/
inductive Coalesce : RangeSpec → List RangeSpec → List RangeSpec → Prop where
  | done (c) : Coalesce c [] [c]
  | next (c r rs out) : r.start > c.stop + 1 → Coalesce r rs out →
      Coalesce c (r :: rs) (c :: out)
  | extend (c r rs out) : ¬ r.start > c.stop + 1 → r.stop > c.stop →
      Coalesce ⟨c.start, r.stop, min c.index r.index⟩ rs out →
      Coalesce c (r :: rs) out
  | absorb (c r rs out) : ¬ r.start > c.stop + 1 → ¬ r.stop > c.stop →
      Coalesce c rs out → Coalesce c (r :: rs) out

theorem combineLoop_coalesce :
    ∀ (rest : List RangeSpec) (current : RangeSpec) (done : List RangeSpec),
      ∃ out, Coalesce current rest out ∧
        combineLoop current rest done = done.reverse ++ out := by
  intro rest
  induction rest with
  | nil =>
    intro c done
    refine ⟨[c], .done c, ?_⟩
    unfold combineLoop
    rw [List.reverse_cons]
  | cons r rs ih =>
    intro c done
    unfold combineLoop
    by_cases h1 : r.start > c.stop + 1
    · rw [if_pos h1]
      obtain ⟨out, hco, heq⟩ := ih r (c :: done)
      refine ⟨c :: out, .next c r rs out h1 hco, ?_⟩
      rw [heq, List.reverse_cons, List.append_assoc]
      rfl
    · rw [if_neg h1]
      by_cases h2 : r.stop > c.stop
      · rw [if_pos h2]
        obtain ⟨out, hco, heq⟩ :=
          ih ⟨c.start, r.stop, if c.index > r.index then r.index else c.index⟩ done
        have hmin : (if c.index > r.index then r.index else c.index) = min c.index r.index := by
          split_ifs <;> omega
        rw [hmin] at hco
        exact ⟨out, .extend c r rs out h1 h2 hco, heq⟩
      · rw [if_neg h2]
        obtain ⟨out, hco, heq⟩ := ih c done
        exact ⟨out, .absorb c r rs out h1 h2 hco, heq⟩

/-- C5 amended.  For 2+ valid specs `parseRange` sorts ascending by start
and coalesces: a spec with `start <= current.end + 1` is merged — extending
`end` and taking the minimum index only when it extends the interval's end;
a contained spec is absorbed without affecting the kept index (this is the
amendment: the minimum is *not* over all merged members) — then the merged
set is re-sorted by the kept original indices. -/
theorem parseRange_merge_amended (size : Int) (str : String) :
    ((rawRanges size str).length < 2 → parseRange size str = rawRanges size str) ∧
    (¬ (rawRanges size str).length < 2 →
      ∀ c rest, List.insertionSort startLe (rawRanges size str) = c :: rest →
        ∃ merged, Coalesce c rest merged ∧
          parseRange size str = List.insertionSort indexLe merged) := by
  constructor
  · intro h
    unfold parseRange
    rw [if_pos h]
  · intro h c rest hsort
    obtain ⟨out, hco, heq⟩ := combineLoop_coalesce rest c []
    refine ⟨out, hco, ?_⟩
    unfold parseRange
    rw [if_neg h, hsort]
    show List.insertionSort indexLe (combineLoop c rest []) = _
    rw [heq]
    rfl

/-- Witness for C5 at the counterexample header. -/
theorem parseRange_merge_amended_witness :
    ∃ merged, Coalesce ⟨0, 10, 2⟩ [⟨2, 3, 0⟩, ⟨20, 30, 1⟩] merged ∧
      parseRange 100 "bytes=2-3,20-30,0-10" = List.insertionSort indexLe merged :=
  (parseRange_merge_amended 100 "bytes=2-3,20-30,0-10").2 (by decide)
    ⟨0, 10, 2⟩ [⟨2, 3, 0⟩, ⟨20, 30, 1⟩] (by rfl)

/-! ### Path lemmas (claim C1) -/

/-- The non-empty segments of a path (what "confined under root" is stated
with: the root's segment list is a prefix of the resolved path's). -/
def cleanSegs (cs : List Char) : List (List Char) :=
  (splitP isSep cs).filter (fun s => !s.isEmpty)

theorem splitP_nil (p : Char → Bool) : splitP p [] = [[]] := rfl

theorem splitP_cons (p : Char → Bool) (c : Char) (rest : List Char) :
    splitP p (c :: rest) =
      if p c then [] :: splitP p rest
      else
        match splitP p rest with
        | [] => [[c]]
        | g :: gs => (c :: g) :: gs := rfl

theorem splitP_ne_nil (p : Char → Bool) (cs : List Char) : splitP p cs ≠ [] := by
  cases cs with
  | nil => exact fun h => List.noConfusion h
  | cons c rest =>
    rw [splitP_cons]
    by_cases hp : p c
    · simp only [hp, if_true]
      exact fun h => List.noConfusion h
    · simp only [hp, if_false]
      cases hsp : splitP p rest with
      | nil => exact fun h => List.noConfusion h
      | cons g gs => exact fun h => List.noConfusion h

theorem splitP_append (p : Char → Bool) (b : List Char) :
    ∀ (a : List Char) (c : Char), p c = true →
      splitP p (a ++ c :: b) = splitP p a ++ splitP p b := by
  intro a
  induction a with
  | nil =>
    intro c hc
    show splitP p (c :: b) = splitP p [] ++ splitP p b
    rw [splitP_cons, splitP_nil]
    simp only [hc, if_true]
    rfl
  | cons x xs ih =>
    intro c hc
    show splitP p (x :: (xs ++ c :: b)) = splitP p (x :: xs) ++ splitP p b
    rw [splitP_cons, splitP_cons, ih c hc]
    by_cases hx : p x
    · simp only [hx, if_true]
      rfl
    · simp only [hx, if_false]
      cases hsp : splitP p xs with
      | nil => exact absurd hsp (splitP_ne_nil p xs)
      | cons g gs => rfl

theorem splitP_no_sep (p : Char → Bool) :
    ∀ (cs : List Char), ∀ s ∈ splitP p cs, ∀ c ∈ s, p c = false := by
  intro cs
  induction cs with
  | nil =>
    intro s hs c hc
    rw [show splitP p [] = [[]] from rfl, List.mem_singleton] at hs
    subst hs
    exact absurd hc (List.not_mem_nil c)
  | cons x xs ih =>
    intro s hs c hc
    rw [splitP_cons] at hs
    by_cases hx : p x
    · simp only [hx, if_true] at hs
      rw [List.mem_cons] at hs
      cases hs with
      | inl h => subst h; exact absurd hc (List.not_mem_nil c)
      | inr h => exact ih s h c hc
    · simp only [hx, if_false] at hs
      cases hsp : splitP p xs with
      | nil => exact absurd hsp (splitP_ne_nil p xs)
      | cons g gs =>
        rw [hsp] at hs
        simp only [Bool.false_eq_true, if_false] at hs
        rw [List.mem_cons] at hs
        cases hs with
        | inl h =>
          subst h
          rw [List.mem_cons] at hc
          cases hc with
          | inl h' => subst h'; simpa using hx
          | inr h' => exact ih g (hsp ▸ List.mem_cons_self g gs) c h'
        | inr h => exact ih s (hsp ▸ List.mem_cons_of_mem g h) c hc

theorem splitP_of_no_sep (p : Char → Bool) :
    ∀ (s : List Char), (∀ c ∈ s, p c = false) → splitP p s = [s] := by
  intro s
  induction s with
  | nil => intro _; rfl
  | cons x xs ih =>
    intro h
    rw [splitP_cons]
    have hx : p x = false := h x (List.mem_cons_self x xs)
    rw [ih (fun c hc => h c (List.mem_cons_of_mem x hc))]
    simp only [hx, Bool.false_eq_true, if_false]

/-- The backslash alternative of the traversal regexp's separator class. -/
def isBsl (c : Char) : Bool := c == '\\'

theorem splitP_or (p q : Char → Bool) :
    ∀ cs : List Char,
      splitP (fun c => p c || q c) cs = (splitP p cs).flatMap (splitP q) := by
  intro cs
  induction cs with
  | nil => rfl
  | cons x rest ih =>
    rw [splitP_cons, splitP_cons]
    by_cases hp : p x
    · simp only [hp, Bool.true_or, if_true]
      rw [ih]
      rfl
    · simp only [hp, Bool.false_or, if_false]
      by_cases hq : q x
      · simp only [hq, if_true]
        cases hsp : splitP p rest with
        | nil => exact absurd hsp (splitP_ne_nil p rest)
        | cons g gs =>
          rw [hsp] at ih
          simp only [Bool.false_eq_true, if_false]
          rw [List.flatMap_cons, splitP_cons]
          simp only [hq, if_true]
          rw [ih, List.flatMap_cons]
          rfl
      · simp only [hq, if_false]
        cases hsp : splitP p rest with
        | nil => exact absurd hsp (splitP_ne_nil p rest)
        | cons g gs =>
          rw [hsp] at ih
          simp only [Bool.false_eq_true, if_false]
          rw [List.flatMap_cons, splitP_cons]
          simp only [hq, Bool.false_eq_true, if_false]
          cases hsq : splitP q g with
          | nil => exact absurd hsq (splitP_ne_nil q g)
          | cons k ks =>
            rw [List.flatMap_cons, hsq] at ih
            rw [ih]
            simp only [List.cons_append]

theorem upPath_no_dotdot (cs : List Char) (h : upPathTest cs = false) :
    ∀ s ∈ splitP isSep cs, s ≠ dotdotSeg := by
  intro s hs hdd
  subst hdd
  have hsplit : splitP isSepRx cs = (splitP isSep cs).flatMap (splitP isBsl) :=
    splitP_or isSep isBsl cs
  have hmem : dotdotSeg ∈ splitP isSepRx cs := by
    rw [hsplit, List.mem_flatMap]
    refine ⟨dotdotSeg, hs, ?_⟩
    rw [splitP_of_no_sep isBsl dotdotSeg (by decide)]
    exact List.mem_singleton.mpr rfl
  have : upPathTest cs = true := by
    unfold upPathTest
    rw [List.any_eq_true]
    exact ⟨dotdotSeg, hmem, by simp⟩
  rw [this] at h
  exact Bool.noConfusion h

theorem foldl_normStep_clean (isAbs : Bool) :
    ∀ (parts acc : List (List Char)),
      (∀ s ∈ parts, s ≠ dotSeg ∧ s ≠ dotdotSeg) →
      parts.foldl (normStep isAbs) acc =
        (parts.filter (fun s => !s.isEmpty)).reverse ++ acc := by
  intro parts
  induction parts with
  | nil => intro acc _; rfl
  | cons part ps ih =>
    intro acc h
    have hpart := h part (List.mem_cons_self part ps)
    rw [List.foldl_cons]
    by_cases hpe : part = []
    · subst hpe
      have hstep : normStep isAbs acc [] = acc := by
        unfold normStep
        rw [if_pos (Or.inl rfl)]
      rw [hstep, ih acc (fun s hs => h s (List.mem_cons_of_mem _ hs)), List.filter_cons]
      simp only [List.isEmpty_nil, Bool.not_true, Bool.false_eq_true, if_false]
    · have hstep : normStep isAbs acc part = part :: acc := by
        unfold normStep
        rw [if_neg (by
          intro hor
          cases hor with
          | inl h' => exact hpe h'
          | inr h' => exact hpart.1 h')]
        rw [if_neg hpart.2]
      rw [hstep, ih (part :: acc) (fun s hs => h s (List.mem_cons_of_mem _ hs)),
        List.filter_cons]
      have hne : (!part.isEmpty) = true := by
        cases part with
        | nil => exact absurd rfl hpe
        | cons c cs => rfl
      rw [if_pos hne, List.reverse_cons, List.append_assoc]
      rfl

theorem foldl_normStep_no_dotdot (isAbs : Bool) :
    ∀ (parts acc : List (List Char)),
      (∀ s ∈ parts, s ≠ dotdotSeg) →
      ∃ extra, parts.foldl (normStep isAbs) acc = extra ++ acc ∧
        ∀ e ∈ extra, e ∈ parts ∧ e ≠ [] ∧ e ≠ dotSeg ∧ e ≠ dotdotSeg := by
  intro parts
  induction parts with
  | nil =>
    intro acc _
    exact ⟨[], rfl, fun e he => absurd he (List.not_mem_nil e)⟩
  | cons part ps ih =>
    intro acc h
    have hpart := h part (List.mem_cons_self part ps)
    rw [List.foldl_cons]
    by_cases hskip : part = [] ∨ part = dotSeg
    · have hstep : normStep isAbs acc part = acc := by
        unfold normStep
        rw [if_pos hskip]
      rw [hstep]
      obtain ⟨extra, heq, hp⟩ := ih acc (fun s hs => h s (List.mem_cons_of_mem _ hs))
      refine ⟨extra, heq, fun e he => ?_⟩
      obtain ⟨h1, h2, h3, h4⟩ := hp e he
      exact ⟨List.mem_cons_of_mem _ h1, h2, h3, h4⟩
    · have hstep : normStep isAbs acc part = part :: acc := by
        unfold normStep
        rw [if_neg hskip, if_neg hpart]
      rw [hstep]
      obtain ⟨extra, heq, hp⟩ := ih (part :: acc) (fun s hs => h s (List.mem_cons_of_mem _ hs))
      refine ⟨extra ++ [part], ?_, fun e he => ?_⟩
      · rw [heq, List.append_assoc]
        rfl
      · rw [List.mem_append, List.mem_singleton] at he
        cases he with
        | inl he' =>
          obtain ⟨h1, h2, h3, h4⟩ := hp e he'
          exact ⟨List.mem_cons_of_mem _ h1, h2, h3, h4⟩
        | inr he' =>
          subst he'
          push_neg at hskip
          exact ⟨List.mem_cons_self _ _, hskip.1, hskip.2, hpart⟩

theorem joinSegs_split :
    ∀ (segs : List (List Char)), segs ≠ [] →
      (∀ s ∈ segs, ∀ c ∈ s, isSep c = false) →
      splitP isSep (joinSegs segs) = segs := by
  intro segs
  induction segs with
  | nil => intro h _; exact absurd rfl h
  | cons s ss ih =>
    intro _ h
    cases ss with
    | nil =>
      show splitP isSep s = [s]
      exact splitP_of_no_sep isSep s (h s (List.mem_cons_self s []))
    | cons s2 ss2 =>
      show splitP isSep (s ++ '/' :: joinSegs (s2 :: ss2)) = s :: s2 :: ss2
      rw [splitP_append isSep _ s '/' (by decide)]
      rw [splitP_of_no_sep isSep s (h s (List.mem_cons_self s _))]
      rw [ih (fun hc => List.noConfusion hc) (fun x hx c hc => h x (List.mem_cons_of_mem s hx) c hc)]
      rfl

theorem mkPath_abs_cons (t : Bool) (segs : List (List Char)) :
    ∃ l, mkPath true t segs = '/' :: l := by
  unfold mkPath
  simp only [if_true]
  rw [if_neg (List.cons_ne_nil '/' (joinSegs segs))]
  by_cases hc : t ∧ ('/' :: joinSegs segs).getLast? ≠ some '/'
  · rw [if_pos hc, List.cons_append]
    exact ⟨joinSegs segs ++ ['/'], rfl⟩
  · rw [if_neg hc]
    exact ⟨joinSegs segs, rfl⟩

theorem mkPath_split (t : Bool) (segs : List (List Char))
    (h : ∀ s ∈ segs, s ≠ [] ∧ ∀ c ∈ s, isSep c = false) :
    splitP isSep (mkPath true t segs) = [] :: segs ∨
      splitP isSep (mkPath true t segs) = ([] :: segs) ++ [[]] := by
  unfold mkPath
  simp only [if_true]
  rw [if_neg (List.cons_ne_nil '/' (joinSegs segs))]
  by_cases hc : t ∧ ('/' :: joinSegs segs).getLast? ≠ some '/'
  · -- a trailing separator is appended; the body cannot be empty then
    rw [if_pos hc]
    have hbody : joinSegs segs ≠ [] := by
      intro hb
      rw [hb] at hc
      exact hc.2 rfl
    have hsegs : segs ≠ [] := by
      intro hs
      rw [hs] at hbody
      exact hbody rfl
    right
    rw [List.cons_append, splitP_cons]
    simp only [show isSep '/' = true from rfl, if_true]
    rw [show joinSegs segs ++ ['/'] = joinSegs segs ++ '/' :: [] from rfl]
    rw [splitP_append isSep [] (joinSegs segs) '/' (by decide)]
    rw [joinSegs_split segs hsegs (fun s hs => (h s hs).2)]
    rfl
  · rw [if_neg hc]
    cases hsegs : segs with
    | nil =>
      right
      rw [show joinSegs [] = ([] : List Char) from rfl]
      rfl
    | cons s ss =>
      left
      rw [splitP_cons]
      simp only [show isSep '/' = true from rfl, if_true]
      rw [← hsegs, joinSegs_split segs (by rw [hsegs]; exact fun hc' => List.noConfusion hc')
        (fun s hs => (h s hs).2)]

theorem filter_nonempty_eq_self (segs : List (List Char))
    (h : ∀ s ∈ segs, s ≠ []) :
    List.filter (fun s => !s.isEmpty) segs = segs := by
  induction segs with
  | nil => rfl
  | cons s ss ih =>
    rw [List.filter_cons]
    have : (!s.isEmpty) = true := by
      cases s with
      | nil => exact absurd rfl (h [] (List.mem_cons_self [] ss))
      | cons c cs => rfl
    rw [if_pos this, ih (fun x hx => h x (List.mem_cons_of_mem s hx))]

theorem cleanSegs_mkPath (t : Bool) (segs : List (List Char))
    (h : ∀ s ∈ segs, s ≠ [] ∧ ∀ c ∈ s, isSep c = false) :
    cleanSegs (mkPath true t segs) = segs := by
  unfold cleanSegs
  have hfil := filter_nonempty_eq_self segs (fun s hs => (h s hs).1)
  cases mkPath_split t segs h with
  | inl heq =>
    rw [heq, List.filter_cons]
    simp only [List.isEmpty_nil, Bool.not_true, Bool.false_eq_true, if_false]
    exact hfil
  | inr heq =>
    rw [heq, List.filter_append, List.filter_cons]
    simp only [List.isEmpty_nil, Bool.not_true, Bool.false_eq_true, if_false]
    rw [hfil]
    simp

theorem normSegsOf_mkPath (t : Bool) (segs : List (List Char))
    (h : ∀ s ∈ segs, (s ≠ [] ∧ ∀ c ∈ s, isSep c = false) ∧ s ≠ dotSeg ∧ s ≠ dotdotSeg) :
    normSegsOf true (mkPath true t segs) = segs := by
  unfold normSegsOf
  have hfil := filter_nonempty_eq_self segs (fun s hs => (h s hs).1.1)
  have hclean : ∀ s ∈ ([] : List Char) :: segs, s ≠ dotSeg ∧ s ≠ dotdotSeg := by
    intro s hs
    rw [List.mem_cons] at hs
    cases hs with
    | inl h' => subst h'; exact ⟨by decide, by decide⟩
    | inr h' => exact (h s h').2
  cases mkPath_split t segs (fun s hs => (h s hs).1) with
  | inl heq =>
    rw [heq, foldl_normStep_clean true _ [] hclean, List.append_nil, List.reverse_reverse,
      List.filter_cons]
    simp only [List.isEmpty_nil, Bool.not_true, Bool.false_eq_true, if_false]
    exact hfil
  | inr heq =>
    have hclean2 : ∀ s ∈ (([] : List Char) :: segs) ++ [[]], s ≠ dotSeg ∧ s ≠ dotdotSeg := by
      intro s hs
      rw [List.mem_append, List.mem_singleton] at hs
      cases hs with
      | inl h' => exact hclean s h'
      | inr h' => subst h'; exact ⟨by decide, by decide⟩
    rw [heq, foldl_normStep_clean true _ [] hclean2, List.append_nil, List.reverse_reverse,
      List.filter_append, List.filter_cons]
    simp only [List.isEmpty_nil, Bool.not_true, Bool.false_eq_true, if_false]
    rw [hfil]
    simp

theorem pathNormalizeL_mkPath (t : Bool) (segs : List (List Char))
    (h : ∀ s ∈ segs, (s ≠ [] ∧ ∀ c ∈ s, isSep c = false) ∧ s ≠ dotSeg ∧ s ≠ dotdotSeg) :
    ∃ t', pathNormalizeL (mkPath true t segs) = mkPath true t' segs := by
  obtain ⟨l, hl⟩ := mkPath_abs_cons t segs
  refine ⟨hasTrailL (mkPath true t segs), ?_⟩
  unfold pathNormalizeL
  rw [if_neg (by rw [hl]; exact List.cons_ne_nil '/' l)]
  have habs : isAbsL (mkPath true t segs) = true := by rw [hl]; rfl
  rw [habs, normSegsOf_mkPath t segs h]

theorem cleanSegs_props (root : List Char)
    (hclean : ∀ s ∈ splitP isSep root, s ≠ dotSeg ∧ s ≠ dotdotSeg) :
    ∀ s ∈ cleanSegs root,
      (s ≠ [] ∧ ∀ c ∈ s, isSep c = false) ∧ s ≠ dotSeg ∧ s ≠ dotdotSeg := by
  intro s hs
  unfold cleanSegs at hs
  rw [List.mem_filter] at hs
  obtain ⟨hmem, hne⟩ := hs
  refine ⟨⟨?_, splitP_no_sep isSep root s hmem⟩, hclean s hmem⟩
  cases s with
  | nil => exact absurd hne (by decide)
  | cons c cs => exact fun h => List.noConfusion h

/-- Core of the confinement invariant: joining a clean absolute `root` with
a path `q` whose segments never contain `..` and re-normalizing yields a
path whose non-empty segments extend the root's. -/
theorem cleanSegs_join_confined (root q : List Char)
    (habs : isAbsL root = true)
    (hclean : ∀ s ∈ splitP isSep root, s ≠ dotSeg ∧ s ≠ dotdotSeg)
    (hq : ∀ s ∈ splitP isSep q, s ≠ dotdotSeg) :
    ∃ rest, cleanSegs (pathNormalizeL (pathJoinL root q)) = cleanSegs root ++ rest := by
  have hroot_ne : root ≠ [] := by
    intro h
    rw [h] at habs
    exact Bool.noConfusion habs
  have hRprops := cleanSegs_props root hclean
  by_cases hqne : q = []
  · -- join with the empty path: normalize the root twice
    subst hqne
    have hjoin : pathJoinL root [] = pathNormalizeL root := by
      simp [pathJoinL, hroot_ne]
    have hS : normSegsOf true root = cleanSegs root := by
      unfold normSegsOf
      rw [foldl_normStep_clean true (splitP isSep root) [] hclean, List.append_nil,
        List.reverse_reverse]
      rfl
    have hnorm : pathNormalizeL root = mkPath true (hasTrailL root) (cleanSegs root) := by
      unfold pathNormalizeL
      rw [if_neg hroot_ne, habs, hS]
    obtain ⟨t', ht'⟩ := pathNormalizeL_mkPath (hasTrailL root) (cleanSegs root) hRprops
    refine ⟨[], ?_⟩
    rw [hjoin, hnorm, ht', cleanSegs_mkPath t' (cleanSegs root) (fun s hs => (hRprops s hs).1),
      List.append_nil]
  · -- join with a non-empty path
    have hcomb_ne : root ++ '/' :: q ≠ [] := by
      cases root with
      | nil => exact absurd rfl hroot_ne
      | cons c cs => exact fun h => List.noConfusion h
    have hjoin : pathJoinL root q = pathNormalizeL (root ++ '/' :: q) := by
      simp [pathJoinL, hroot_ne, hqne, hcomb_ne]
    have habs2 : isAbsL (root ++ '/' :: q) = true := by
      cases root with
      | nil => exact absurd rfl hroot_ne
      | cons c cs => exact habs
    have hsplit2 : splitP isSep (root ++ '/' :: q) = splitP isSep root ++ splitP isSep q :=
      splitP_append isSep q root '/' (by decide)
    have hfold1 : (splitP isSep root).foldl (normStep true) [] = (cleanSegs root).reverse := by
      rw [foldl_normStep_clean true (splitP isSep root) [] hclean, List.append_nil]
      rfl
    obtain ⟨extra, hex, hexp⟩ :=
      foldl_normStep_no_dotdot true (splitP isSep q) ((cleanSegs root).reverse) hq
    have hS : normSegsOf true (root ++ '/' :: q) = cleanSegs root ++ extra.reverse := by
      unfold normSegsOf
      rw [hsplit2, List.foldl_append, hfold1, hex, List.reverse_append,
        List.reverse_reverse]
    have hSprops : ∀ s ∈ cleanSegs root ++ extra.reverse,
        (s ≠ [] ∧ ∀ c ∈ s, isSep c = false) ∧ s ≠ dotSeg ∧ s ≠ dotdotSeg := by
      intro s hs
      rw [List.mem_append] at hs
      cases hs with
      | inl h' => exact hRprops s h'
      | inr h' =>
        rw [List.mem_reverse] at h'
        obtain ⟨h1, h2, h3, h4⟩ := hexp s h'
        exact ⟨⟨h2, splitP_no_sep isSep q s h1⟩, h3, h4⟩
    have hnorm : pathNormalizeL (root ++ '/' :: q) =
        mkPath true (hasTrailL (root ++ '/' :: q)) (cleanSegs root ++ extra.reverse) := by
      unfold pathNormalizeL
      rw [if_neg hcomb_ne, habs2, hS]
    obtain ⟨t', ht'⟩ :=
      pathNormalizeL_mkPath (hasTrailL (root ++ '/' :: q)) (cleanSegs root ++ extra.reverse) hSprops
    refine ⟨extra.reverse, ?_⟩
    rw [hjoin, hnorm, ht',
      cleanSegs_mkPath t' (cleanSegs root ++ extra.reverse) (fun s hs => (hSprops s hs).1)]

/-- C1.  Traversal rejection and root confinement: `"../secret.txt"` is
rejected 403 under any root; `"pets/../../send.js"` is rejected 403 under
any root; `"pets/../name.txt"` under root `/var/www/fixtures` succeeds and
resolves to `root/name.txt`; and for every request whose resolution
succeeds under a set root (with the root resolved — absolute, no `.`/`..`
segments, as `path.resolve` guarantees), the resolved absolute path is
confined under the root: the root's segments are a prefix of the result's
segments. -/
theorem normalizePath_traversal_confinement :
    (∀ root cwd : String, normalizePath some "../secret.txt" (some root) cwd = .err 403) ∧
    (∀ root cwd : String, normalizePath some "pets/../../send.js" (some root) cwd = .err 403) ∧
    (∀ cwd : String, normalizePath some "pets/../name.txt" (some "/var/www/fixtures") cwd =
       .ok "/var/www/fixtures/name.txt" ["name.txt"]) ∧
    (∀ (decode : String → Option String) (path0 root cwd path : String) (parts : List String),
       isAbsL root.toList = true →
       (∀ s ∈ splitP isSep root.toList, s ≠ dotSeg ∧ s ≠ dotdotSeg) →
       normalizePath decode path0 (some root) cwd = .ok path parts →
       ∃ rest, cleanSegs path.toList = cleanSegs root.toList ++ rest) := by
  refine ⟨fun root cwd => rfl, fun root cwd => rfl, fun cwd => rfl, ?_⟩
  intro decode path0 root cwd path parts habs hclean h
  unfold normalizePath at h
  cases hd : decode path0 with
  | none =>
    rw [hd] at h
    exact NormalizeResult.noConfusion h
  | some p =>
    rw [hd] at h
    simp only [] at h
    split at h
    · exact NormalizeResult.noConfusion h
    · split at h
      · -- non-empty decoded path
        split at h
        · exact NormalizeResult.noConfusion h
        · next hup =>
          injection h with h1 h2
          subst h1
          exact cleanSegs_join_confined root.toList
            (pathNormalizeL ('.' :: '/' :: p.toList)) habs hclean
            (upPath_no_dotdot _ (Bool.eq_false_iff.mpr hup))
      · -- empty decoded path
        split at h
        · exact NormalizeResult.noConfusion h
        · next hup =>
          injection h with h1 h2
          subst h1
          exact cleanSegs_join_confined root.toList p.toList habs hclean
            (upPath_no_dotdot _ (Bool.eq_false_iff.mpr hup))

/-- Witness for C1 at concrete inputs. -/
theorem normalizePath_traversal_confinement_witness :
    normalizePath some "../secret.txt" (some "/var/www/fixtures") "/" = .err 403 ∧
    (∃ rest, cleanSegs ("/var/www/fixtures/name.txt" : String).toList =
       cleanSegs ("/var/www/fixtures" : String).toList ++ rest) := by
  constructor
  · exact normalizePath_traversal_confinement.1 "/var/www/fixtures" "/"
  · exact normalizePath_traversal_confinement.2.2.2 some "pets/../name.txt"
      "/var/www/fixtures" "/" "/var/www/fixtures/name.txt" ["name.txt"]
      (by decide) (by decide) (by rfl)
